import Mathlib

/-!
Verification of the stellarium-web-engine hierarchical progressive tile
engine (HiPS) specification against the repository's sources.

The repository subset at hand contains the headers (`hips.h`, `obj.h`, ...)
together with `obj.c` and `modules/milkyway.c`.  The implementation file of
the tile engine itself (`hips.c`) is not part of the subset, so the
tile-engine operations are modelled from the specification text (each such
definition carries a doc comment starting with `Modelled from the spec:`).
The object/property model (`obj.c`) and the milkyway module
(`modules/milkyway.c`) are embedded directly from the C sources.
-/

set_option autoImplicit false

/-! ## Sky-Index (spec §4.1): hierarchical tile addresses -/

/-- A hierarchical tile address `(order, pixel)` as in spec §3: order 0 is
the coarsest subdivision, a pixel index is valid for a given order in the
range `[0, 12·4^order)`. -/
structure TileAddr where
  order : Nat
  pix : Nat
deriving DecidableEq, Repr

/-- Validity of a tile address: `pix < 12 * 4 ^ order` (healpix-style). -/
def TileAddr.valid (a : TileAddr) : Prop := a.pix < 12 * 4 ^ a.order

instance (a : TileAddr) : Decidable a.valid := by
  unfold TileAddr.valid; infer_instance

/-- Modelled from the spec: `address_of_child(addr, childIndex ∈ [0,3])`
returns the child address at `order+1`; the fixed integer transform of the
healpix nested scheme is `pix ↦ 4*pix + k`. -/
def address_of_child (a : TileAddr) (k : Fin 4) : TileAddr :=
  ⟨a.order + 1, 4 * a.pix + k.val⟩

/-- Modelled from the spec: `address_of_parent(addr)` returns the parent
address at `order-1`, or the sentinel "no parent" (`none`) when
`order == 0`; the fixed integer transform is `pix ↦ pix / 4`. -/
def address_of_parent (a : TileAddr) : Option TileAddr :=
  match a.order with
  | 0 => none
  | o + 1 => some ⟨o, a.pix / 4⟩

/-! ## Object/property model, embedded from `src/obj.c` -/

/-- Raw bytes of an attribute member value; `memcmp` equality in the C code
is bitwise equality of these byte lists. -/
abbrev Bytes := List Nat

/-- The observable state of an object touched by `obj_fn_default`
(`obj.c:226`): the per-member byte buffers (indexed by member offset), the
number of `on_changed` callback invocations, and the number of
`module_changed` notifications. -/
structure ObjState where
  members : Nat → Bytes
  nbOnChanged : Nat
  nbModuleChanged : Nat

/-- `obj_fn_default` from `obj.c:226-276`.  With no input arguments it
returns the current member value.  Otherwise it decodes the new value into
`buf` and, only when `memcmp(p, buf, size) != 0`, copies `buf` over the
member, fires `on_changed` if the attribute declares one, and calls
`module_changed`.  A bitwise-equal value leaves everything untouched. -/
def obj_fn_default (st : ObjState) (idx : Nat) (hasOnChanged : Bool)
    (args : Option Bytes) : ObjState × Option Bytes :=
  match args with
  | none => (st, some (st.members idx))
  | some buf =>
    if st.members idx = buf then
      (st, none)
    else
      ({ members := fun i => if i = idx then buf else st.members i,
         nbOnChanged := st.nbOnChanged + (if hasOnChanged then 1 else 0),
         nbModuleChanged := st.nbModuleChanged + 1 }, none)

/-- A designation emitted by a klass `get_designations` method: a category
string and a value string. -/
structure Designation where
  cat : String
  value : String
deriving DecidableEq, Repr

/-- State threaded through `obj_get_designations` (`obj.c:215-223`): the
calls made so far to the user callback `f` (in order), and the counter the
local variable `nb` points to. -/
structure DesigState where
  calls : List Designation
  nb : Nat
deriving DecidableEq, Repr

/-- `on_name` from `obj.c:199-212`: forwards `(cat, value)` to the user
callback `f`, then executes `nb++` on the local pointer variable `nb`
itself — which moves the pointer and leaves the pointed-to counter
unchanged — and returns 0. -/
def on_name (d : Designation) (st : DesigState) : DesigState :=
  { st with calls := st.calls ++ [d] }

/-- `obj_get_designations` from `obj.c:215-223`: starts with `nb = 0`, has
the klass `get_designations` method invoke `on_name` once per designation,
and returns `nb`.  The first component of the result is the returned
count, the second the list of forwarded callback invocations. -/
def obj_get_designations (klassDesignations : List Designation) :
    Nat × List Designation :=
  let st := klassDesignations.foldl (fun s d => on_name d s) ⟨[], 0⟩
  (st.nb, st.calls)

/-! ### Claim C7 -/

lemma obj_get_designations_foldl (ds : List Designation) (st : DesigState) :
    ds.foldl (fun s d => on_name d s) st = ⟨st.calls ++ ds, st.nb⟩ := by
  induction ds generalizing st with
  | nil => cases st; simp
  | cons d tl ih =>
    rw [List.foldl_cons, ih]
    simp [on_name]

/-- Claim C7: for every valid address at order `o-1` (with `o > 0`) and
every child index `k ∈ {0,1,2,3}`, taking the `k`-th child and then the
parent returns the original address; moreover the child is a valid address,
every tile above order 0 has exactly one parent (the parent map is a total
function above order 0), and the four children of a tile are pairwise
distinct. -/
theorem C7_parent_child_roundtrip (o pix : Nat) (k : Fin 4)
    (ho : 0 < o) (hv : pix < 12 * 4 ^ (o - 1)) :
    address_of_parent (address_of_child ⟨o - 1, pix⟩ k) = some ⟨o - 1, pix⟩ ∧
    (address_of_child ⟨o - 1, pix⟩ k).valid ∧
    (∀ a : TileAddr, 0 < a.order → ∃ p : TileAddr, address_of_parent a = some p) ∧
    (∀ k' : Fin 4, k ≠ k' →
      address_of_child ⟨o - 1, pix⟩ k ≠ address_of_child ⟨o - 1, pix⟩ k') := by
  refine ⟨?_, ?_, ?_, ?_⟩
  · simp only [address_of_child, address_of_parent]
    have hk : k.val < 4 := k.isLt
    congr 1
    congr 1
    omega
  · simp only [address_of_child, TileAddr.valid]
    have hk : k.val < 4 := k.isLt
    have : 4 ^ (o - 1 + 1) = 4 * 4 ^ (o - 1) := by ring
    rw [this]
    omega
  · intro a ha
    rcases a with ⟨order, p⟩
    cases order with
    | zero => simp at ha
    | succ n => exact ⟨⟨n, p / 4⟩, rfl⟩
  · intro k' hne
    simp only [address_of_child, ne_eq, TileAddr.mk.injEq]
    intro h
    exact hne (Fin.ext (by omega))

/-- Witness for C7: concrete instance at `o = 1`, `pix = 5`, `k = 2`. -/
theorem C7_parent_child_roundtrip_witness :
    address_of_parent (address_of_child ⟨0, 5⟩ 2) = some ⟨0, 5⟩ :=
  (C7_parent_child_roundtrip 1 5 2 (by decide) (by decide)).1

/-! ### Claim C8 -/

/-- Claim C8: `obj_fn_default` on the set path: a bitwise-equal value
leaves the object state unchanged and fires neither `on_changed` nor
`module_changed`; a different value overwrites exactly the mapped member
(all other members untouched) and fires `on_changed` exactly once (when
the attribute declares one) and `module_changed` exactly once. -/
theorem C8_obj_fn_default_set (st : ObjState) (idx : Nat) (b : Bool)
    (buf : Bytes) :
    (st.members idx = buf → obj_fn_default st idx b (some buf) = (st, none)) ∧
    (st.members idx ≠ buf →
      ((obj_fn_default st idx b (some buf)).1.members idx = buf ∧
       (∀ i, i ≠ idx →
         (obj_fn_default st idx b (some buf)).1.members i = st.members i) ∧
       (obj_fn_default st idx b (some buf)).1.nbOnChanged =
         st.nbOnChanged + (if b then 1 else 0) ∧
       (obj_fn_default st idx b (some buf)).1.nbModuleChanged =
         st.nbModuleChanged + 1)) := by
  constructor
  · intro h
    simp [obj_fn_default, h]
  · intro h
    refine ⟨?_, ?_, ?_, ?_⟩
    · simp [obj_fn_default, if_neg h]
    · intro i hi
      simp [obj_fn_default, if_neg h, hi]
    · simp [obj_fn_default, if_neg h]
    · simp [obj_fn_default, if_neg h]

/-- Witness for C8: a concrete object with member bytes `[7]` at offset 0;
setting `[7]` is a no-op, setting `[9]` overwrites and fires the
callbacks once. -/
theorem C8_obj_fn_default_set_witness :
    obj_fn_default ⟨fun _ => [7], 0, 0⟩ 0 true (some [7]) =
      (⟨fun _ => [7], 0, 0⟩, none) ∧
    (obj_fn_default ⟨fun _ => [7], 0, 0⟩ 0 true (some [9])).1.members 0 = [9] ∧
    (obj_fn_default ⟨fun _ => [7], 0, 0⟩ 0 true (some [9])).1.nbOnChanged = 1 ∧
    (obj_fn_default ⟨fun _ => [7], 0, 0⟩ 0 true (some [9])).1.nbModuleChanged
      = 1 := by
  have h1 := (C8_obj_fn_default_set ⟨fun _ => [7], 0, 0⟩ 0 true [7]).1 rfl
  have h2 := (C8_obj_fn_default_set ⟨fun _ => [7], 0, 0⟩ 0 true [9]).2
    (by decide)
  exact ⟨h1, h2.1, h2.2.2.1, h2.2.2.2⟩

/-! ### Claim C10 -/

/-- Claim C10: `obj_get_designations` always returns 0 — the counter is
never incremented, because `on_name` increments the local pointer variable
rather than the pointed-to integer — while the user callback is still
invoked exactly once per designation, in order, with the category and
value forwarded. -/
theorem C10_obj_get_designations_returns_zero (ds : List Designation) :
    (obj_get_designations ds).1 = 0 ∧ (obj_get_designations ds).2 = ds := by
  unfold obj_get_designations
  rw [obj_get_designations_foldl]
  exact ⟨rfl, by simp⟩

/-! ## Date parsing (`hips_parse_date`, C6) -/

/-- Numeric value of an ASCII digit character. -/
def dval (c : Char) : Nat := c.toNat - 48

/-- Modelled from the spec: the fixed `YYYY-MM-DDThh:mmZ` date pattern of
HiPS property files (`hips.h:222-232`; `hips.c` is not in the source
subset).  Returns the `(year, month, day, hour, minute)` fields, or `none`
when the string does not match the pattern. -/
def parse_date_fields (cs : List Char) : Option (Int × Int × Int × Nat × Nat) :=
  match cs with
  | [y1, y2, y3, y4, '-', m1, m2, '-', d1, d2, 'T', h1, h2, ':', mi1, mi2, 'Z'] =>
    if [y1, y2, y3, y4, m1, m2, d1, d2, h1, h2, mi1, mi2].all Char.isDigit then
      some ((dval y1 * 1000 + dval y2 * 100 + dval y3 * 10 + dval y4 : Nat),
            (dval m1 * 10 + dval m2 : Nat),
            (dval d1 * 10 + dval d2 : Nat),
            dval h1 * 10 + dval h2,
            dval mi1 * 10 + dval mi2)
    else none
  | _ => none

/-- Julian day number of a Gregorian calendar date, by the standard integer
formula with C-style truncating division (`Int.tdiv`). -/
def gregorian_to_jdn (y m d : Int) : Int :=
  let a : Int := Int.tdiv (m - 14) 12
  Int.tdiv (1461 * (y + 4800 + a)) 4 + Int.tdiv (367 * (m - 2 - 12 * a)) 12
    - Int.tdiv (3 * (Int.tdiv (y + 4900 + a) 100)) 4 + d - 32075

/-- Modelled from the spec: `hips_parse_date` (`hips.h:222-232`) parses a
date like `2019-01-02T15:27Z` and returns the time in Modified Julian
Date, or `0` in case of error.  `MJD = JDN - 2400001` at midnight plus the
day fraction from hours and minutes. -/
def hips_parse_date (s : String) : ℚ :=
  match parse_date_fields s.data with
  | none => 0
  | some (y, m, d, h, mi) =>
    ((gregorian_to_jdn y m d - 2400001 : Int) : ℚ) +
      ((h * 60 + mi : Nat) : ℚ) / 1440

/-! ## Milkyway module, embedded from `src/modules/milkyway.c` -/

/-- A created hips survey as seen by `hips_create(url, release_date, NULL)`
(`hips.h:56-65`): the root URL and the release date in MJD (0 if
unknown). -/
structure HipsSurvey where
  url : String
  release_date : ℚ
deriving DecidableEq

/-- `hips_create` from `hips.h:64`: records the url and release date. -/
def hips_create (url : String) (release_date : ℚ) : HipsSurvey :=
  ⟨url, release_date⟩

/-- The json `args` fields read by `milkyway_add_data_source`
(`milkyway.c:66-82`): `obs_title` and `hips_release_date`, each possibly
absent. -/
structure MilkywayArgs where
  obs_title : Option String
  hips_release_date : Option String
deriving DecidableEq

/-- The state of the milkyway module relevant to `add_data_source`
(`milkyway.c:12-16`): the optional hips survey. -/
structure MilkywayState where
  hips : Option HipsSurvey
deriving DecidableEq

/-- C `strcasecmp(a, b) == 0`: case-insensitive string equality,
comparing the `tolower` image of each character. -/
def strcasecmp_eq (a b : String) : Bool :=
  a.data.map Char.toLower == b.data.map Char.toLower

/-- `milkyway_add_data_source` from `milkyway.c:66-82`: returns 1 and
leaves the module unchanged when a survey is already set, when `type` or
`args` is absent, when `type` is not `"hips"`, or when `obs_title` is
absent or not case-insensitively `"milkyway"`; otherwise creates the
survey with the release date parsed from `hips_release_date` (0 if
absent) and returns 0. -/
def milkyway_add_data_source (mw : MilkywayState) (url : String)
    (type : Option String) (args : Option MilkywayArgs) :
    MilkywayState × Int :=
  if mw.hips.isSome then (mw, 1)
  else
    match type, args with
    | some t, some a =>
      if t ≠ "hips" then (mw, 1)
      else
        match a.obs_title with
        | none => (mw, 1)
        | some title =>
          if strcasecmp_eq title "milkyway" = false then (mw, 1)
          else
            let release_date : ℚ :=
              (a.hips_release_date.map hips_parse_date).getD 0
            (⟨some (hips_create url release_date)⟩, 0)
    | _, _ => (mw, 1)

/-! ### Claim C6 -/

/-- Claim C6: `hips_parse_date` maps the date string `2019-01-02T15:27Z`
to the fixed Modified Julian Date `58485 + 927/1440 = 9357703/160`
(= 58485.64375), and returns 0 for every string that does not match the
`YYYY-MM-DDThh:mmZ` pattern. -/
theorem C6_hips_parse_date_mjd :
    hips_parse_date "2019-01-02T15:27Z" = 9357703 / 160 ∧
    ∀ s : String, parse_date_fields s.data = none → hips_parse_date s = 0 := by
  constructor
  · have h : parse_date_fields ("2019-01-02T15:27Z".data) =
        some (2019, 1, 2, 15, 27) := rfl
    have h2 : gregorian_to_jdn 2019 1 2 = 2458486 := rfl
    unfold hips_parse_date
    rw [h]
    norm_num [h2]
  · intro s h
    unfold hips_parse_date
    rw [h]

/-- Witness for C6: the unparsable string `"not-a-date"` yields 0. -/
theorem C6_hips_parse_date_mjd_witness :
    parse_date_fields "not-a-date".data = none ∧
    hips_parse_date "not-a-date" = 0 :=
  ⟨by decide, C6_hips_parse_date_mjd.2 "not-a-date" (by decide)⟩

/-! ### Claim C9 -/

/-- Claim C9: `milkyway_add_data_source` keeps at most one hips survey:
it returns 1 and leaves the module unchanged whenever a survey is already
set, or `type` is absent or not `"hips"`, or `args` is absent, or
`obs_title` is absent or not case-insensitively equal to `"milkyway"`;
a call passing all the checks creates the survey with the release date
parsed from `hips_release_date` (0 when absent) and returns 0. -/
theorem C9_milkyway_single_survey (mw : MilkywayState) (url : String)
    (type : Option String) (args : Option MilkywayArgs) :
    (mw.hips ≠ none → milkyway_add_data_source mw url type args = (mw, 1)) ∧
    (type = none → milkyway_add_data_source mw url type args = (mw, 1)) ∧
    (args = none → milkyway_add_data_source mw url type args = (mw, 1)) ∧
    (∀ t, type = some t → t ≠ "hips" →
      milkyway_add_data_source mw url type args = (mw, 1)) ∧
    (∀ a, args = some a → a.obs_title = none →
      milkyway_add_data_source mw url type args = (mw, 1)) ∧
    (∀ a ti, args = some a → a.obs_title = some ti →
      strcasecmp_eq ti "milkyway" = false →
      milkyway_add_data_source mw url type args = (mw, 1)) ∧
    (∀ a ti, mw.hips = none → type = some "hips" → args = some a →
      a.obs_title = some ti → strcasecmp_eq ti "milkyway" = true →
      milkyway_add_data_source mw url type args =
        (⟨some ⟨url, (a.hips_release_date.map hips_parse_date).getD 0⟩⟩, 0)) := by
  refine ⟨?_, ?_, ?_, ?_, ?_, ?_, ?_⟩
  · intro h
    obtain ⟨s, hs⟩ := Option.ne_none_iff_exists'.mp h
    simp [milkyway_add_data_source, hs]
  · intro h
    subst h
    cases hm : mw.hips <;> cases args <;>
      simp [milkyway_add_data_source, hm]
  · intro h
    subst h
    cases hm : mw.hips <;> cases type <;>
      simp [milkyway_add_data_source, hm]
  · intro t ht hne
    subst ht
    cases hm : mw.hips <;> cases args <;>
      simp [milkyway_add_data_source, hm, hne]
  · intro a ha hti
    subst ha
    cases hm : mw.hips <;> rcases type with _ | t <;>
      simp [milkyway_add_data_source, hm, hti]
  · intro a ti ha hti hcase
    subst ha
    cases hm : mw.hips <;> rcases type with _ | t <;>
      simp [milkyway_add_data_source, hm, hti]
    by_cases ht : t = "hips" <;> simp [ht, hti, hcase]
  · intro a ti hm ht ha hti hcase
    subst ht ha
    simp [milkyway_add_data_source, hm, hti, hcase, hips_create]

/-- Witness for C9: a first well-formed call on an empty module creates
the survey and returns 0; a second call on the resulting module returns 1
and leaves it unchanged. -/
theorem C9_milkyway_single_survey_witness :
    milkyway_add_data_source ⟨none⟩ "u" (some "hips")
      (some ⟨some "MilkyWay", none⟩) = (⟨some ⟨"u", 0⟩⟩, 0) ∧
    milkyway_add_data_source ⟨some ⟨"u", 0⟩⟩ "v" (some "hips")
      (some ⟨some "milkyway", none⟩) = (⟨some ⟨"u", 0⟩⟩, 1) := by
  constructor
  · have h := (C9_milkyway_single_survey ⟨none⟩ "u" (some "hips")
      (some ⟨some "MilkyWay", none⟩)).2.2.2.2.2.2 ⟨some "MilkyWay", none⟩
      "MilkyWay" rfl rfl rfl rfl (by decide)
    simpa using h
  · exact (C9_milkyway_single_survey ⟨some ⟨"u", 0⟩⟩ "v" (some "hips")
      (some ⟨some "milkyway", none⟩)).1 (by simp)

/-! ## Hipslist parsing (`hips_parse_hipslist`, C5) -/

/-- Modelled from the spec: one entry of a hipslist file (spec §6) — a
text format enumerating survey entries, each with a locator and a release
date; an entry can instead be structurally broken (unterminated). -/
inductive HipslistEntry where
  | good (url : String) (release_date : ℚ)
  | broken
deriving DecidableEq

/-- Modelled from the spec: `hips_parse_hipslist` (`hips.h:148-158`;
`hips.c` is not in the source subset).  Walks the entries in file order;
for each well-formed entry the callback is invoked once with the locator
and release date; a non-zero callback return aborts the remaining parse;
a structurally broken entry yields a negative return value.  Returns the
return code together with the list of callback invocations made, in
order. -/
def hips_parse_hipslist (cb : String → ℚ → Int) :
    List HipslistEntry → Int × List (String × ℚ)
  | [] => (0, [])
  | .good u d :: rest =>
    if cb u d ≠ 0 then (1, [(u, d)])
    else
      let r := hips_parse_hipslist cb rest
      if r.1 < 0 then (r.1, (u, d) :: r.2) else (r.1 + 1, (u, d) :: r.2)
  | .broken :: _ => (-1, [])

/-! ### Claim C5 -/

/-- Claim C5: a well-formed list of entries yields the number of parsed
entries (so 3 for a 3-entry list) with exactly one callback invocation per
entry in file order; a structurally broken entry yields a negative return
value with no side effects beyond the callbacks already run before the
break point; and as soon as one callback invocation returns non-zero, no
callback runs for the remaining entries. -/
theorem C5_hips_parse_hipslist (cb : String → ℚ → Int) :
    (∀ ps : List (String × ℚ), (∀ p ∈ ps, cb p.1 p.2 = 0) →
      hips_parse_hipslist cb (ps.map fun p => .good p.1 p.2) =
        ((ps.length : Int), ps)) ∧
    (∀ (ps : List (String × ℚ)) (rest : List HipslistEntry),
      (∀ p ∈ ps, cb p.1 p.2 = 0) →
      hips_parse_hipslist cb
          ((ps.map fun p => .good p.1 p.2) ++ .broken :: rest) =
        (-1, ps)) ∧
    (∀ (ps : List (String × ℚ)) (u : String) (d : ℚ)
        (rest : List HipslistEntry),
      (∀ p ∈ ps, cb p.1 p.2 = 0) → cb u d ≠ 0 →
      hips_parse_hipslist cb
          ((ps.map fun p => .good p.1 p.2) ++ .good u d :: rest) =
        ((ps.length : Int) + 1, ps ++ [(u, d)])) := by
  refine ⟨?_, ?_, ?_⟩
  · intro ps h
    induction ps with
    | nil => simp [hips_parse_hipslist]
    | cons p tl ih =>
      have hp : cb p.1 p.2 = 0 := h p (by simp)
      have htl := ih (fun q hq => h q (by simp [hq]))
      simp only [List.map_cons, hips_parse_hipslist]
      rw [if_neg (by simp [hp]), htl]
      norm_num
  · intro ps rest h
    induction ps with
    | nil => simp [hips_parse_hipslist]
    | cons p tl ih =>
      have hp : cb p.1 p.2 = 0 := h p (by simp)
      have htl := ih (fun q hq => h q (by simp [hq]))
      simp only [List.map_cons, List.cons_append, hips_parse_hipslist,
        List.append_eq]
      rw [if_neg (by simp [hp]), htl]
      norm_num
  · intro ps u d rest h hne
    induction ps with
    | nil =>
      simp only [List.map_nil, List.nil_append, hips_parse_hipslist]
      rw [if_pos hne]
      simp
    | cons p tl ih =>
      have hp : cb p.1 p.2 = 0 := h p (by simp)
      have htl := ih (fun q hq => h q (by simp [hq]))
      simp only [List.map_cons, List.cons_append, hips_parse_hipslist,
        List.append_eq]
      rw [if_neg (by simp [hp]), htl]
      norm_num
      omega

/-- Witness for C5: with an always-0 callback, a well-formed 3-entry list
returns 3 with the 3 invocations in order, and a list broken after one
good entry returns -1 having invoked the callback once; with a callback
that rejects `"b"`, the parse stops after the rejecting invocation. -/
theorem C5_hips_parse_hipslist_witness :
    hips_parse_hipslist (fun _ _ => 0)
        [.good "a" 1, .good "b" 2, .good "c" 3] =
      (3, [("a", 1), ("b", 2), ("c", 3)]) ∧
    hips_parse_hipslist (fun _ _ => 0) [.good "a" 1, .broken, .good "c" 3] =
      (-1, [("a", 1)]) ∧
    hips_parse_hipslist (fun u _ => if u = "b" then 7 else 0)
        [.good "a" 1, .good "b" 2, .good "c" 3] =
      (2, [("a", 1), ("b", 2)]) := by
  refine ⟨?_, ?_, ?_⟩
  · have h := (C5_hips_parse_hipslist (fun _ _ => 0)).1
      [("a", 1), ("b", 2), ("c", 3)] (by simp)
    simpa using h
  · have h := (C5_hips_parse_hipslist (fun _ _ => 0)).2.1
      [("a", 1)] [.good "c" 3] (by simp)
    simpa using h
  · have h := (C5_hips_parse_hipslist (fun u _ => if u = "b" then 7 else 0)).2.2
      [("a", 1)] "b" 2 [.good "c" 3] (by simp) (by simp)
    simpa using h

/-! ## Traversal Engine (`hips_traverse`, C2/C3) -/

/-- Modelled from the spec: the outcome of a (sub)traversal (spec §4.4) —
the abort code propagated from the visitor if any, whether the resolution
ceiling was hit anywhere, and the visitor invocations made, in order. -/
structure TravState where
  abort : Option Int
  limitHit : Bool
  visited : List (Nat × Nat)
deriving DecidableEq, Repr

/-- Modelled from the spec: sequencing of two sibling subtraversals — when
the first aborted, the traversal terminated and the second never ran. -/
def travSeq (a b : TravState) : TravState :=
  if a.abort.isSome then a
  else ⟨b.abort, a.limitHit || b.limitHit, a.visited ++ b.visited⟩

/-- Modelled from the spec: one node of the depth-first traversal
(spec §4.4; `hips.h:99-113`, `hips.c` is not in the source subset).  The
visitor returns 1 to keep going deeper, 0 to stop iterating inside this
tile, and a negative value to terminate the whole traversal with that
code.  `d` counts the levels left before the resolution ceiling; at
`d = 0` a descend answer is overridden into stop-here and the ceiling hit
is recorded. -/
def trav (cb : Nat → Nat → Int) : Nat → Nat → Nat → TravState
  | 0, order, pix =>
    if cb order pix < 0 then ⟨some (cb order pix), false, [(order, pix)]⟩
    else if cb order pix = 0 then ⟨none, false, [(order, pix)]⟩
    else ⟨none, true, [(order, pix)]⟩
  | d + 1, order, pix =>
    if cb order pix < 0 then ⟨some (cb order pix), false, [(order, pix)]⟩
    else if cb order pix = 0 then ⟨none, false, [(order, pix)]⟩
    else
      let s := ([0, 1, 2, 3].map fun k =>
        trav cb d (order + 1) (4 * pix + k)).foldl travSeq ⟨none, false, []⟩
      ⟨s.abort, s.limitHit, (order, pix) :: s.visited⟩

/-- Modelled from the spec: the full traversal state of `hips_traverse`
(`hips.h:99-113`): depth-first descent started at each of the 12 order-0
healpix tiles, with `maxOrder` levels below order 0 allowed. -/
def hips_traverse_state (cb : Nat → Nat → Int) (maxOrder : Nat) :
    TravState :=
  ((List.range 12).map fun pix => trav cb maxOrder 0 pix).foldl travSeq
    ⟨none, false, []⟩

/-- Modelled from the spec: the return value of `hips_traverse`
(`hips.h:108-111`): 0 if the traverse finished, -1 if the traverse limit
was reached, and -v when the callback returned the negative value -v. -/
def hips_traverse (cb : Nat → Nat → Int) (maxOrder : Nat) : Int :=
  match (hips_traverse_state cb maxOrder).abort with
  | some c => c
  | none => if (hips_traverse_state cb maxOrder).limitHit then -1 else 0

lemma travSeq_visited_sub (a b : TravState) (q : Nat × Nat)
    (h : q ∈ (travSeq a b).visited) : q ∈ a.visited ∨ q ∈ b.visited := by
  unfold travSeq at h
  split at h
  · exact Or.inl h
  · simpa using List.mem_append.mp h

lemma foldl_travSeq_mem (l : List TravState) (init : TravState)
    (q : Nat × Nat) (h : q ∈ (l.foldl travSeq init).visited) :
    q ∈ init.visited ∨ ∃ s ∈ l, q ∈ s.visited := by
  induction l generalizing init with
  | nil => exact Or.inl h
  | cons s tl ih =>
    rcases ih (travSeq init s) h with h' | ⟨s', hs', hq⟩
    · rcases travSeq_visited_sub init s q h' with h'' | h''
      · exact Or.inl h''
      · exact Or.inr ⟨s, by simp, h''⟩
    · exact Or.inr ⟨s', by simp [hs'], hq⟩

lemma trav_visited_bound (cb : Nat → Nat → Int) :
    ∀ (d order pix : Nat), ∀ q ∈ (trav cb d order pix).visited,
      order ≤ q.1 ∧ q.1 ≤ order + d := by
  intro d
  induction d with
  | zero =>
    intro order pix q hq
    simp only [trav] at hq
    split at hq <;> [skip; split at hq] <;>
      · simp at hq
        subst hq
        omega
  | succ d ih =>
    intro order pix q hq
    simp only [trav] at hq
    split at hq
    · simp at hq; subst hq; omega
    · split at hq
      · simp at hq; subst hq; omega
      · simp only [List.mem_cons] at hq
        rcases hq with hq | hq
        · subst hq; omega
        · rcases foldl_travSeq_mem _ _ _ hq with h' | ⟨s', hs', hq'⟩
          · simp at h'
          · simp only [List.mem_map, List.mem_cons] at hs'
            obtain ⟨k, _, rfl⟩ := hs'
            have := ih (order + 1) (4 * pix + k) q hq'
            omega

/-- A traversal outcome aborted with code `c` only if `c` is negative and
the last visitor invocation returned `c` (nothing was visited after it). -/
def AbortSpec (cb : Nat → Nat → Int) (s : TravState) : Prop :=
  ∀ c, s.abort = some c → c < 0 ∧
    ∃ lp, s.visited.getLast? = some lp ∧ cb lp.1 lp.2 = c

lemma travSeq_abortSpec (cb : Nat → Nat → Int) (a b : TravState)
    (ha : AbortSpec cb a) (hb : AbortSpec cb b) :
    AbortSpec cb (travSeq a b) := by
  intro c hc
  unfold travSeq at hc ⊢
  by_cases hab : a.abort.isSome
  · rw [if_pos hab] at hc
    rw [if_pos hab]
    exact ha c hc
  · rw [if_neg hab] at hc
    rw [if_neg hab]
    simp only at hc ⊢
    obtain ⟨hclt, lp, hlast, hcb⟩ := hb c hc
    have hbne : b.visited ≠ [] := by
      intro hnil
      rw [hnil] at hlast
      simp at hlast
    refine ⟨hclt, lp, ?_, hcb⟩
    rw [List.getLast?_append_of_ne_nil _ hbne]
    exact hlast

lemma foldl_travSeq_abortSpec (cb : Nat → Nat → Int) (l : List TravState)
    (init : TravState) (hinit : AbortSpec cb init)
    (hl : ∀ s ∈ l, AbortSpec cb s) :
    AbortSpec cb (l.foldl travSeq init) := by
  induction l generalizing init with
  | nil => exact hinit
  | cons s tl ih =>
    exact ih (travSeq init s)
      (travSeq_abortSpec cb init s hinit (hl s (by simp)))
      (fun s' hs' => hl s' (by simp [hs']))

lemma trav_abortSpec (cb : Nat → Nat → Int) :
    ∀ d order pix, AbortSpec cb (trav cb d order pix) := by
  intro d
  induction d with
  | zero =>
    intro order pix
    simp only [AbortSpec, trav]
    split
    · rename_i hlt
      intro c hc
      simp only [Option.some.injEq] at hc
      exact ⟨hc ▸ hlt, (order, pix), by simp, hc⟩
    · split
      · intro c hc
        simp at hc
      · intro c hc
        simp at hc
  | succ d ih =>
    intro order pix
    simp only [AbortSpec, trav]
    split
    · rename_i hlt
      intro c hc
      simp only [Option.some.injEq] at hc
      exact ⟨hc ▸ hlt, (order, pix), by simp, hc⟩
    · split
      · intro c hc
        simp at hc
      · intro c hc
        simp only at hc
        have hs : AbortSpec cb (([0, 1, 2, 3].map fun k =>
            trav cb d (order + 1) (4 * pix + k)).foldl travSeq
            ⟨none, false, []⟩) := by
          refine foldl_travSeq_abortSpec cb _ _ ?_ ?_
          · intro c' hc'
            simp at hc'
          · intro s' hs'
            simp only [List.mem_map, List.mem_cons] at hs'
            obtain ⟨k, _, rfl⟩ := hs'
            exact ih (order + 1) (4 * pix + k)
        obtain ⟨hclt, lp, hlast, hcb⟩ := hs c hc
        have hbne : (([0, 1, 2, 3].map fun k =>
            trav cb d (order + 1) (4 * pix + k)).foldl travSeq
            ⟨none, false, []⟩).visited ≠ [] := by
          intro hnil
          rw [hnil] at hlast
          simp at hlast
        refine ⟨hclt, lp, ?_, hcb⟩
        simp only
        rw [show ((order, pix) :: (([0, 1, 2, 3].map fun k =>
            trav cb d (order + 1) (4 * pix + k)).foldl travSeq
            ⟨none, false, []⟩).visited) = [(order, pix)] ++
            (([0, 1, 2, 3].map fun k =>
            trav cb d (order + 1) (4 * pix + k)).foldl travSeq
            ⟨none, false, []⟩).visited from rfl]
        rw [List.getLast?_append_of_ne_nil _ hbne]
        exact hlast

lemma hips_traverse_state_abortSpec (cb : Nat → Nat → Int)
    (maxOrder : Nat) : AbortSpec cb (hips_traverse_state cb maxOrder) := by
  refine foldl_travSeq_abortSpec cb _ _ ?_ ?_
  · intro c hc
    simp at hc
  · intro s hs
    simp only [List.mem_map] at hs
    obtain ⟨pix, _, rfl⟩ := hs
    exact trav_abortSpec cb maxOrder 0 pix

/-! ### Claim C2 -/

/-- Counterexample for C2 as stated: the depth-limited return code is the
fixed value -1 (`hips.h:110`), which is not different from every
caller-supplied abort code — a visitor that aborts with -1 yields exactly
the same return value as a purely depth-limited traversal with no abort
at all, so the two outcomes are indistinguishable from the return
value. -/
theorem C2_distinguished_code_counterexample :
    hips_traverse (fun _ _ => 1) 0 = -1 ∧
    (hips_traverse_state (fun _ _ => 1) 0).abort = none ∧
    (hips_traverse_state (fun _ _ => 1) 0).limitHit = true ∧
    hips_traverse (fun _ _ => -1) 2 = -1 ∧
    (hips_traverse_state (fun _ _ => -1) 2).abort = some (-1) := by
  refine ⟨by decide, by decide, by decide, by decide, by decide⟩

/-- Claim C2 (amended): `hips_traverse` returns 0 when the depth-first
traversal completes fully (no abort, ceiling never hit); returns the
fixed depth-limited code -1 when the resolution ceiling was hit and no
abort happened — a code distinguished from every abort code other than
-1 itself; and when the visitor returns a negative value, the traversal
terminates immediately (the aborting invocation is the last one) and
that same negative value is returned unchanged. -/
theorem C2_traverse_return_contract (cb : Nat → Nat → Int)
    (maxOrder : Nat) :
    ((hips_traverse_state cb maxOrder).abort = none →
      (hips_traverse_state cb maxOrder).limitHit = false →
      hips_traverse cb maxOrder = 0) ∧
    ((hips_traverse_state cb maxOrder).abort = none →
      (hips_traverse_state cb maxOrder).limitHit = true →
      hips_traverse cb maxOrder = -1) ∧
    (∀ c, (hips_traverse_state cb maxOrder).abort = some c →
      c < 0 ∧ hips_traverse cb maxOrder = c ∧
      ∃ lp, (hips_traverse_state cb maxOrder).visited.getLast? = some lp ∧
        cb lp.1 lp.2 = c) := by
  refine ⟨?_, ?_, ?_⟩
  · intro ha hl
    unfold hips_traverse
    rw [ha, hl]
    simp
  · intro ha hl
    unfold hips_traverse
    rw [ha, hl]
    simp
  · intro c hc
    obtain ⟨hclt, lp, hlast, hcb⟩ :=
      hips_traverse_state_abortSpec cb maxOrder c hc
    refine ⟨hclt, ?_, lp, hlast, hcb⟩
    unfold hips_traverse
    rw [hc]

/-- Witness for C2: a stop-everywhere visitor completes with 0; an
always-descend visitor against ceiling 1 returns -1; an abort(-7) visitor
propagates -7 unchanged. -/
theorem C2_traverse_return_contract_witness :
    hips_traverse (fun _ _ => 0) 2 = 0 ∧
    hips_traverse (fun _ _ => 1) 1 = -1 ∧
    hips_traverse (fun _ _ => -7) 2 = -7 := by
  refine ⟨?_, ?_, ?_⟩
  · exact (C2_traverse_return_contract (fun _ _ => 0) 2).1
      (by decide) (by decide)
  · exact (C2_traverse_return_contract (fun _ _ => 1) 1).2.1
      (by decide) (by decide)
  · exact ((C2_traverse_return_contract (fun _ _ => -7) 2).2.2 (-7)
      (by decide)).2.1

/-! ### Claim C3 -/

/-- Modelled from the spec: the traversal depth ceiling implied by the
current angular resolution target, derived from the requested visible
angle and the target split order (spec §4.4, §6).  The angle is given in
turns (full sky = 1 turn = 2π radians); the spec fixes that at the
full-sky angle the ceiling is the target split order itself, and a survey
covering a smaller angle needs correspondingly fewer subdivision
levels. -/
def hips_render_ceiling (angleTurns : ℚ) (splitOrder : Nat) : Nat :=
  if 1 ≤ angleTurns then splitOrder
  else splitOrder - Nat.log2 (Rat.ceil (1 / angleTurns)).toNat

/-- Modelled from the spec: `hips_render_traverse` (`hips.h:210-220`)
runs the depth-first traversal with the ceiling derived from the visible
angle and the requested split order; at the ceiling the engine forces
stop-here regardless of the visitor's answer. -/
def hips_render_traverse (angleTurns : ℚ) (splitOrder : Nat)
    (cb : Nat → Nat → Int) : TravState :=
  hips_traverse_state cb (hips_render_ceiling angleTurns splitOrder)

/-- Claim C3: a traversal-based render started with the full-sky visible
angle (2π, i.e. 1 turn) and target split order `S` never invokes the
visitor (nor, a fortiori, the render callback) on a tile of order greater
than `S`, for every visitor — including one answering descend at every
node. -/
theorem C3_render_traverse_depth_ceiling (S : Nat) (cb : Nat → Nat → Int) :
    ∀ q ∈ (hips_render_traverse 1 S cb).visited, q.1 ≤ S := by
  intro q hq
  have hceil : hips_render_ceiling 1 S = S := by simp [hips_render_ceiling]
  unfold hips_render_traverse at hq
  rw [hceil] at hq
  unfold hips_traverse_state at hq
  rcases foldl_travSeq_mem _ _ _ hq with h | ⟨s, hs, hq'⟩
  · simp at h
  · simp only [List.mem_map] at hs
    obtain ⟨pix, _, rfl⟩ := hs
    have := trav_visited_bound cb S 0 pix q hq'
    omega

/-- Witness for C3: with an always-descend visitor and split order 1, the
tile (order 1, pix 3) is visited and its order satisfies the bound. -/
theorem C3_render_traverse_depth_ceiling_witness :
    (1, 3) ∈ (hips_render_traverse 1 1 (fun _ _ => 1)).visited ∧
    ((1, 3) : Nat × Nat).1 ≤ 1 :=
  ⟨by decide,
   C3_render_traverse_depth_ceiling 1 (fun _ _ => 1) (1, 3) (by decide)⟩

/-! ## Fallback Resolver (`hips_get_tile_texture`, C1) -/

/-- An affine UV transform `uv ↦ (sx*u + ox, sy*v + oy)`, as written into
the `transf` matrix output of `hips_get_tile_texture`
(`hips.h:135-137`). -/
structure UVTransform where
  sx : ℚ
  sy : ℚ
  ox : ℚ
  oy : ℚ
deriving DecidableEq, Repr

/-- The identity UV transform. -/
def UVTransform.id : UVTransform := ⟨1, 1, 0, 0⟩

/-- Composition: `(a.comp b)` applies `b` first, then `a`. -/
def UVTransform.comp (a b : UVTransform) : UVTransform :=
  ⟨a.sx * b.sx, a.sy * b.sy, a.sx * b.ox + a.ox, a.sy * b.oy + a.oy⟩

/-- Modelled from the spec: the quadrant mapping of child `k ∈ [0,3]` —
maps the full child UV square onto the child's quadrant of its parent's
UV square (spec §4.5 step 2). -/
def quadrant_map (k : Nat) : UVTransform :=
  ⟨1/2, 1/2, ((k % 2 : Nat) : ℚ) / 2, ((k / 2 : Nat) : ℚ) / 2⟩

/-- Modelled from the spec: the composition of one quadrant mapping per
level walked — `quadrant_chain j pix` maps the UV square of a tile with
pixel index `pix` into the sub-square of its ancestor `j` levels up
(spec §4.5 step 2: "transform composes multiplicatively per level
walked"). -/
def quadrant_chain : Nat → Nat → UVTransform
  | 0, _ => UVTransform.id
  | j + 1, pix => (quadrant_chain j (pix / 4)).comp (quadrant_map (pix % 4))

/-- Modelled from the spec: the texture view of one survey as seen by the
fallback resolver — which tile addresses currently have a materialized
texture in the cache, and the loaded all-sky mosaic texture if any
(spec §3, §4.5). -/
structure HipsTiles where
  tiles : TileAddr → Option Nat
  allsky : Option Nat

/-- Modelled from the spec: the walk up via `address_of_parent`, bounded
by order 0, looking for the nearest materialized tile starting at the
given address itself; returns its texture together with the transform
mapping the requested tile's UV square into it (spec §4.5 step 2). -/
def nearest_loaded (st : HipsTiles) : Nat → Nat → Option (Nat × UVTransform)
  | 0, pix => (st.tiles ⟨0, pix⟩).map fun tex => (tex, UVTransform.id)
  | o + 1, pix =>
    match st.tiles ⟨o + 1, pix⟩ with
    | some tex => some (tex, UVTransform.id)
    | none =>
      match nearest_loaded st o (pix / 4) with
      | some (tex, t) => some (tex, t.comp (quadrant_map (pix % 4)))
      | none => none

/-- Modelled from the spec: the grid cell of base tile `b < 12` in the
all-sky mosaic's healpix layout (a 4 by 3 grid of base tiles). -/
def allsky_grid_cell (b : Nat) : UVTransform :=
  ⟨1/4, 1/3, ((b % 4 : Nat) : ℚ) / 4, ((b / 4 : Nat) : ℚ) / 3⟩

/-- Modelled from the spec: the transform mapping a tile's footprint into
the all-sky mosaic's healpix layout (spec §4.5 step 3). -/
def allsky_transform (order pix : Nat) : UVTransform :=
  (allsky_grid_cell (pix / 4 ^ order)).comp (quadrant_chain order pix)

/-- Modelled from the spec: `hips_get_tile_texture` (`hips.h:115-146`;
`hips.c` is not in the source subset).  Strict fallback order: the exact
tile if materialized (identity transform, loading complete); else the
nearest materialized ancestor (quadrant-chain transform, not complete);
else the all-sky mosaic (not complete); else no texture — with the UV
transform still populated so the caller can render a placeholder at the
correct footprint. -/
def hips_get_tile_texture (st : HipsTiles) (order pix : Nat) :
    Option Nat × UVTransform × Bool :=
  match st.tiles ⟨order, pix⟩ with
  | some tex => (some tex, UVTransform.id, true)
  | none =>
    match nearest_loaded st order pix with
    | some (tex, t) => (some tex, t, false)
    | none =>
      match st.allsky with
      | some tex => (some tex, allsky_transform order pix, false)
      | none => (none, quadrant_chain order pix, false)

lemma nearest_loaded_found (st : HipsTiles) :
    ∀ (j order pix : Nat) (tex : Nat), j ≤ order →
      st.tiles ⟨order - j, pix / 4 ^ j⟩ = some tex →
      (∀ i < j, st.tiles ⟨order - i, pix / 4 ^ i⟩ = none) →
      nearest_loaded st order pix = some (tex, quadrant_chain j pix) := by
  intro j
  induction j with
  | zero =>
    intro order pix tex _ hfound _
    simp only [Nat.sub_zero, pow_zero, Nat.div_one] at hfound
    cases order with
    | zero => simp [nearest_loaded, hfound, quadrant_chain]
    | succ o => simp [nearest_loaded, hfound, quadrant_chain]
  | succ j ih =>
    intro order pix tex hle hfound hnone
    have h0 : st.tiles ⟨order, pix⟩ = none := by
      have := hnone 0 (by omega)
      simpa using this
    cases order with
    | zero => omega
    | succ o =>
      have hdd : ∀ i : Nat, pix / 4 / 4 ^ i = pix / 4 ^ (i + 1) := by
        intro i
        rw [Nat.div_div_eq_div_mul, pow_succ, mul_comm (4 ^ i) 4]
      have hfound' : st.tiles ⟨o - j, pix / 4 / 4 ^ j⟩ = some tex := by
        rw [hdd j]
        have : o - j = o + 1 - (j + 1) := by omega
        rw [this]
        exact hfound
      have hnone' : ∀ i < j, st.tiles ⟨o - i, pix / 4 / 4 ^ i⟩ = none := by
        intro i hi
        rw [hdd i]
        have : o - i = o + 1 - (i + 1) := by omega
        rw [this]
        exact hnone (i + 1) (by omega)
      have hrec := ih o (pix / 4) tex (by omega) hfound' hnone'
      simp [nearest_loaded, h0, hrec, quadrant_chain]

lemma nearest_loaded_none (st : HipsTiles) :
    ∀ (order pix : Nat),
      (∀ i ≤ order, st.tiles ⟨order - i, pix / 4 ^ i⟩ = none) →
      nearest_loaded st order pix = none := by
  intro order
  induction order with
  | zero =>
    intro pix hnone
    have := hnone 0 (by omega)
    simp only [Nat.sub_zero, pow_zero, Nat.div_one] at this
    simp [nearest_loaded, this]
  | succ o ih =>
    intro pix hnone
    have h0 : st.tiles ⟨o + 1, pix⟩ = none := by
      have := hnone 0 (by omega)
      simpa using this
    have hdd : ∀ i : Nat, pix / 4 / 4 ^ i = pix / 4 ^ (i + 1) := by
      intro i
      rw [Nat.div_div_eq_div_mul, pow_succ, mul_comm (4 ^ i) 4]
    have hrec := ih (pix / 4) (fun i hi => by
      rw [hdd i]
      have : o - i = o + 1 - (i + 1) := by omega
      rw [this]
      exact hnone (i + 1) (by omega))
    simp [nearest_loaded, h0, hrec]

/-! ### Claim C1 -/

/-- Claim C1: the fallback resolver in strict order.  (1) the exact tile,
when materialized, is returned with the identity UV transform and loading
complete; (2) otherwise the nearest materialized ancestor — the least
`j > 0` levels up with everything strictly closer unmaterialized, bounded
by order 0 — is returned with the composition of one quadrant mapping per
level walked, loading not complete; (3) otherwise the loaded all-sky
mosaic, loading not complete; (4) otherwise no texture, with the UV
transform still populated with the tile's footprint so a placeholder can
be rendered. -/
theorem C1_get_tile_texture_fallback (st : HipsTiles) (order pix : Nat) :
    (∀ tex, st.tiles ⟨order, pix⟩ = some tex →
      hips_get_tile_texture st order pix = (some tex, UVTransform.id, true)) ∧
    (∀ j tex, 0 < j → j ≤ order →
      st.tiles ⟨order - j, pix / 4 ^ j⟩ = some tex →
      (∀ i < j, st.tiles ⟨order - i, pix / 4 ^ i⟩ = none) →
      hips_get_tile_texture st order pix =
        (some tex, quadrant_chain j pix, false)) ∧
    (∀ tex, (∀ i ≤ order, st.tiles ⟨order - i, pix / 4 ^ i⟩ = none) →
      st.allsky = some tex →
      hips_get_tile_texture st order pix =
        (some tex, allsky_transform order pix, false)) ∧
    ((∀ i ≤ order, st.tiles ⟨order - i, pix / 4 ^ i⟩ = none) →
      st.allsky = none →
      hips_get_tile_texture st order pix =
        (none, quadrant_chain order pix, false)) := by
  refine ⟨?_, ?_, ?_, ?_⟩
  · intro tex h
    simp [hips_get_tile_texture, h]
  · intro j tex hj hle hfound hnone
    have h0 : st.tiles ⟨order, pix⟩ = none := by
      have := hnone 0 hj
      simpa using this
    have hn := nearest_loaded_found st j order pix tex hle hfound hnone
    simp [hips_get_tile_texture, h0, hn]
  · intro tex hnone hsky
    have h0 : st.tiles ⟨order, pix⟩ = none := by
      have := hnone 0 (by omega)
      simpa using this
    have hn := nearest_loaded_none st order pix hnone
    simp [hips_get_tile_texture, h0, hn, hsky]
  · intro hnone hsky
    have h0 : st.tiles ⟨order, pix⟩ = none := by
      have := hnone 0 (by omega)
      simpa using this
    have hn := nearest_loaded_none st order pix hnone
    simp [hips_get_tile_texture, h0, hn, hsky]

/-- Witness for C1: a survey with only the order-0 tile 2 materialized
resolves its order-3 descendant 165 through the 3-level quadrant chain;
the exact tile resolves with the identity transform; an empty survey with
an all-sky mosaic falls back to it; a fully empty survey returns no
texture with the footprint transform populated. -/
theorem C1_get_tile_texture_fallback_witness :
    hips_get_tile_texture
        ⟨fun a => if a = ⟨0, 2⟩ then some 42 else none, none⟩ 3 165 =
      (some 42, quadrant_chain 3 165, false) ∧
    hips_get_tile_texture
        ⟨fun a => if a = ⟨0, 2⟩ then some 42 else none, none⟩ 0 2 =
      (some 42, UVTransform.id, true) ∧
    hips_get_tile_texture ⟨fun _ => none, some 7⟩ 1 5 =
      (some 7, allsky_transform 1 5, false) ∧
    hips_get_tile_texture ⟨fun _ => none, none⟩ 3 165 =
      (none, quadrant_chain 3 165, false) := by
  refine ⟨?_, ?_, ?_, ?_⟩
  · exact (C1_get_tile_texture_fallback _ 3 165).2.1 3 42
      (by decide) (by decide) (by decide) (by decide)
  · exact (C1_get_tile_texture_fallback _ 0 2).1 42 (by decide)
  · exact (C1_get_tile_texture_fallback _ 1 5).2.2.1 7 (by decide) rfl
  · exact (C1_get_tile_texture_fallback _ 3 165).2.2.2 (by decide) rfl

/-! ## Tile Cache (spec §4.2, C4) -/

/-- Modelled from the spec: a tile cache record — the tile address key,
the materialized payload handle, and the byte cost used for eviction
accounting (spec §3 "Tile entry", `hips.h:49-54` note 1). -/
structure CacheEntry where
  key : TileAddr
  tex : Nat
  cost : Nat
deriving DecidableEq, Repr

/-- Total resident cost of a cache, in recency order (head = least
recently used, last = most recently used). -/
def cache_cost (l : List CacheEntry) : Nat := (l.map CacheEntry.cost).sum

/-- Modelled from the spec: the eviction loop of `put` (spec §4.2) —
evict least-recently-used entries (from the head of the recency order)
until the resident cost is within budget, never evicting the
most-recently-used entry (spec §3: an entry is evicted only "when the
cache exceeds its budget and the entry is not the most-recently-used").
Returns `(evicted, remaining)`. -/
def evict_loop (B : Nat) : List CacheEntry → List CacheEntry × List CacheEntry
  | [] => ([], [])
  | [e] => ([], [e])
  | e :: f :: tl =>
    if cache_cost (e :: f :: tl) ≤ B then ([], e :: f :: tl)
    else
      let r := evict_loop B (f :: tl)
      (e :: r.1, r.2)

/-- Modelled from the spec: `put(survey, addr, payload, cost)`
(spec §4.2) — inserts/replaces at the most-recently-used end of the
recency order, then evicts least-recently-used entries while over budget.
Returns `(remaining cache, evicted entries)`. -/
def cache_put (B : Nat) (c : List CacheEntry) (k : TileAddr)
    (tex cost : Nat) : List CacheEntry × List CacheEntry :=
  let c' := (c.filter fun e => e.key != k) ++ [⟨k, tex, cost⟩]
  let r := evict_loop B c'
  (r.2, r.1)

/-- Modelled from the spec: `get(survey, addr)` (spec §4.2) — O(n) lookup
in the model; a successful get implicitly touches the entry, moving it to
the most-recently-used end. -/
def cache_get (c : List CacheEntry) (k : TileAddr) :
    Option Nat × List CacheEntry :=
  match c.find? (fun e => e.key == k) with
  | some e => (some e.tex, (c.filter fun e' => e'.key != k) ++ [e])
  | none => (none, c)

/-- A sequence of insertions `(addr, payload, cost)` applied to an empty
cache under budget `B`. -/
def cache_run (B : Nat) (ops : List (TileAddr × Nat × Nat)) :
    List CacheEntry :=
  ops.foldl (fun c op => (cache_put B c op.1 op.2.1 op.2.2).1) []

lemma evict_loop_split (B : Nat) :
    ∀ l : List CacheEntry, (evict_loop B l).1 ++ (evict_loop B l).2 = l := by
  intro l
  induction l with
  | nil => rfl
  | cons e rest ih =>
    cases rest with
    | nil => rfl
    | cons f tl =>
      simp only [evict_loop]
      split
      · simp
      · simpa using ih

lemma evict_loop_last (B : Nat) :
    ∀ l : List CacheEntry, (evict_loop B l).2.getLast? = l.getLast? := by
  intro l
  induction l with
  | nil => rfl
  | cons e rest ih =>
    cases rest with
    | nil => rfl
    | cons f tl =>
      simp only [evict_loop]
      split
      · rfl
      · simp only
        rw [ih]
        rw [show e :: f :: tl = [e] ++ f :: tl from rfl,
          List.getLast?_append_of_ne_nil _ (by simp)]

lemma evict_loop_cost (B : Nat) :
    ∀ l : List CacheEntry, cache_cost (evict_loop B l).2 ≤ B ∨
      ∃ e, (evict_loop B l).2 = [e] ∧ l.getLast? = some e := by
  intro l
  induction l with
  | nil => left; show cache_cost [] ≤ B; simp [cache_cost]
  | cons e rest ih =>
    cases rest with
    | nil =>
      rcases le_or_lt (cache_cost [e]) B with h | h
      · left; exact h
      · right; exact ⟨e, rfl, rfl⟩
    | cons f tl =>
      simp only [evict_loop]
      split
      · left; assumption
      · simp only
        rcases ih with h | ⟨e', he', hl⟩
        · left; exact h
        · right
          refine ⟨e', he', ?_⟩
          rw [show e :: f :: tl = [e] ++ f :: tl from rfl,
            List.getLast?_append_of_ne_nil _ (by simp)]
          exact hl

lemma cache_put_cost (B : Nat) (c : List CacheEntry) (k : TileAddr)
    (tex cost : Nat) :
    cache_cost (cache_put B c k tex cost).1 ≤ max B cost := by
  unfold cache_put
  simp only
  rcases evict_loop_cost B ((c.filter fun e => e.key != k) ++ [⟨k, tex, cost⟩])
    with h | ⟨e, he, hl⟩
  · exact le_trans h (le_max_left _ _)
  · rw [he]
    rw [List.getLast?_append_of_ne_nil _ (by simp)] at hl
    simp at hl
    subst hl
    simp [cache_cost]

lemma mem_of_getLast?_eq {l : List CacheEntry} {a : CacheEntry}
    (h : l.getLast? = some a) : a ∈ l := by
  have hd := List.dropLast_append_getLast? a (Option.mem_def.mpr h)
  rw [← hd]
  simp

lemma find?_key_unique (k : TileAddr) (new : CacheEntry) (hk : new.key = k) :
    ∀ l : List CacheEntry, new ∈ l → (∀ e ∈ l, e.key = k → e = new) →
      l.find? (fun e => e.key == k) = some new := by
  intro l
  induction l with
  | nil => intro h; simp at h
  | cons e tl ih =>
    intro hmem huniq
    by_cases he : e.key = k
    · have heq : e = new := huniq e (by simp) he
      subst heq
      exact List.find?_cons_of_pos _ (by simp [he])
    · rw [List.find?_cons_of_neg _ (by simp [he])]
      have hmem' : new ∈ tl := by
        rcases List.mem_cons.mp hmem with h' | h'
        · exact absurd (h' ▸ hk) he
        · exact h'
      exact ih hmem' (fun e' he' hke' => huniq e' (by simp [he']) hke')

lemma cache_put_get (B : Nat) (c : List CacheEntry) (k : TileAddr)
    (tex cost : Nat) :
    (cache_get (cache_put B c k tex cost).1 k).1 = some tex := by
  unfold cache_put cache_get
  simp only
  set c' := (c.filter fun e => e.key != k) ++ [⟨k, tex, cost⟩] with hc'
  have hlast : (evict_loop B c').2.getLast? = some ⟨k, tex, cost⟩ := by
    rw [evict_loop_last]
    rw [hc', List.getLast?_append_of_ne_nil _ (by simp)]
    rfl
  have hmem : (⟨k, tex, cost⟩ : CacheEntry) ∈ (evict_loop B c').2 :=
    mem_of_getLast?_eq hlast
  have huniq : ∀ e ∈ (evict_loop B c').2, e.key = k → e = ⟨k, tex, cost⟩ := by
    intro e he hke
    have hec : e ∈ c' := by
      have := evict_loop_split B c'
      rw [← this]
      simp [he]
    rcases List.mem_append.mp hec with h' | h'
    · have := List.mem_filter.mp h'
      simp at this
      exact absurd hke this.2
    · simpa using h'
  rw [find?_key_unique k ⟨k, tex, cost⟩ rfl _ hmem huniq]

lemma cache_run_cost_aux (B : Nat) :
    ∀ (ops : List (TileAddr × Nat × Nat)) (c₀ : List CacheEntry),
      (∀ op ∈ ops, op.2.2 ≤ B) → cache_cost c₀ ≤ B →
      cache_cost (ops.foldl
        (fun c op => (cache_put B c op.1 op.2.1 op.2.2).1) c₀) ≤ B := by
  intro ops
  induction ops with
  | nil => intro c₀ _ h0; exact h0
  | cons op tl ih =>
    intro c₀ h h0
    rw [List.foldl_cons]
    refine ih _ (fun op' h' => h op' (by simp [h'])) ?_
    have := cache_put_cost B c₀ op.1 op.2.1 op.2.2
    have hop : op.2.2 ≤ B := h op (by simp)
    omega

/-! ### Claim C4 -/

/-- Counterexample for C4 as stated: inserting a single entry whose
individual cost 11 exceeds the budget 10 leaves resident cost 11 > 10 —
necessarily so, because the claim itself also demands the oversize entry
be visible for at least one access (which it is: the get returns it), so
"resident cost at most B after any insertion sequence exceeding B" cannot
hold together with that visibility requirement. -/
theorem C4_budget_counterexample :
    cache_cost (cache_put 10 [] ⟨0, 0⟩ 5 11).1 = 11 ∧ ¬ ((11 : Nat) ≤ 10) ∧
    (cache_get (cache_put 10 [] ⟨0, 0⟩ 5 11).1 ⟨0, 0⟩).1 = some 5 := by
  refine ⟨by decide, by decide, by decide⟩

/-- Claim C4 (amended): after any sequence of insertions in which every
entry's individual cost is at most `B`, the resident cost is at most `B`;
in general a single put leaves resident cost at most `max B cost`, so an
entry larger than the whole budget keeps the cache above budget only
until a later operation evicts it.  The evicted set of a put is exactly a
least-recently-touched block of the recency order (evicted ++ remaining
reassembles the pre-eviction order), deterministically since the model is
a function of the access sequence.  An entry whose cost exceeds `B` is
nevertheless inserted and visible for at least one access: a get right
after the put returns it. -/
theorem C4_cache_lru (B : Nat) :
    (∀ ops : List (TileAddr × Nat × Nat), (∀ op ∈ ops, op.2.2 ≤ B) →
      cache_cost (cache_run B ops) ≤ B) ∧
    (∀ (c : List CacheEntry) (k : TileAddr) (tex cost : Nat),
      (cache_put B c k tex cost).2 ++ (cache_put B c k tex cost).1 =
        (c.filter fun e => e.key != k) ++ [⟨k, tex, cost⟩]) ∧
    (∀ (c : List CacheEntry) (k : TileAddr) (tex cost : Nat),
      cache_cost (cache_put B c k tex cost).1 ≤ max B cost) ∧
    (∀ (c : List CacheEntry) (k : TileAddr) (tex cost : Nat),
      (cache_get (cache_put B c k tex cost).1 k).1 = some tex) := by
  refine ⟨?_, ?_, ?_, ?_⟩
  · intro ops h
    exact cache_run_cost_aux B ops [] h (by simp [cache_cost])
  · intro c k tex cost
    exact evict_loop_split B _
  · intro c k tex cost
    exact cache_put_cost B c k tex cost
  · intro c k tex cost
    exact cache_put_get B c k tex cost

/-- Witness for C4: a two-insertion sequence with individual costs 6 and
7 under budget 10 (total 13 > 10) leaves resident cost at most 10. -/
theorem C4_cache_lru_witness :
    cache_cost (cache_run 10 [(⟨0, 0⟩, 1, 6), (⟨0, 1⟩, 2, 7)]) ≤ 10 :=
  (C4_cache_lru 10).1 [(⟨0, 0⟩, 1, 6), (⟨0, 1⟩, 2, 7)] (by decide)
